import Mathlib

/-!
Shallow embedding of the CursorCult rule-pack verification engine
(`src/cursorcult/ccverify.py` plus the `TAG_RE` constant from `cursorcult.py`),
together with theorems settling the specification claims about it.

Python strings are modelled as Lean `String` (with the underlying `List Char`
used for character-level work).  The source-control / filesystem environment a
verification run reads is captured in a `RepoEnv` record; fallible adapter
queries are `Except String` values, mirroring the `RuntimeError`-raising `run`
helper of the source.
-/

namespace CursorCult

/-- Characters stripped by Python's `str.strip` / `str.rstrip` with no
argument: ASCII whitespace plus the Unicode whitespace code points recognised
by CPython. -/
def pyWhitespace : List Char :=
  [' ', '\t', '\n', '\r', '\x0b', '\x0c',
   '\x1c', '\x1d', '\x1e', '\x1f', '\x85', '\xa0',
   ' ', ' ', ' ', ' ', ' ', ' ', ' ',
   ' ', ' ', ' ', ' ', ' ',
   ' ', ' ', ' ', ' ', '　']

/-- Whether a character counts as whitespace for Python's strip operations. -/
def pyIsSpace (c : Char) : Bool := pyWhitespace.contains c

/-- Model of `text.replace("\r\n", "\n")`: left-to-right, non-overlapping
replacement of the two-character sequence. -/
def replaceCRLF : List Char → List Char
  | [] => []
  | [c] => [c]
  | c :: d :: rest =>
    if c = '\r' ∧ d = '\n' then '\n' :: replaceCRLF rest
    else c :: replaceCRLF (d :: rest)

/-- Model of `text.replace("\r", "\n")`. -/
def replaceCR (l : List Char) : List Char :=
  l.map (fun c => if c = '\r' then '\n' else c)

/-- Model of Python `text.split("\n")`: always returns at least one piece,
`"".split("\n") == [""]`, and a trailing newline yields a trailing empty
piece. -/
def splitNL : List Char → List (List Char)
  | [] => [[]]
  | c :: rest =>
    if c = '\n' then [] :: splitNL rest
    else
      match splitNL rest with
      | [] => [[c]]
      | l :: ls => (c :: l) :: ls

/-- Model of Python `"\n".join(pieces)`. -/
def joinNL : List (List Char) → List Char
  | [] => []
  | [l] => l
  | l :: ls => l ++ '\n' :: joinNL ls

/-- Model of Python `line.rstrip()`. -/
def rstrip (l : List Char) : List Char :=
  (l.reverse.dropWhile pyIsSpace).reverse

/-- Model of Python `line.lstrip()`. -/
def lstrip (l : List Char) : List Char :=
  l.dropWhile pyIsSpace

/-- Model of Python `text.strip()` (strip both ends). -/
def stripWS (l : List Char) : List Char :=
  rstrip (lstrip l)

/-- The strip-applied join of the rstripped lines: the body of
`normalize_text` before the final `+ "\n"`. -/
def normBody (t : List Char) : List Char :=
  stripWS (joinNL ((splitNL (replaceCR (replaceCRLF t))).map rstrip))

/-- Character-level body of `normalize_text`:
`"\n".join(line.rstrip() for line in
 text.replace("\r\n", "\n").replace("\r", "\n").split("\n")).strip() + "\n"`. -/
def normList (t : List Char) : List Char :=
  normBody t ++ ['\n']

/-- Embedding of `normalize_text` from `ccverify.py`. -/
def normalize_text (s : String) : String :=
  ⟨normList s.data⟩

/-! ## Environment read by a verification run

A run of `verify_repo` consults git and the filesystem.  Each query the
source performs is a field here; fallible git queries (through the
`RuntimeError`-raising `run` helper) are `Except String` values carrying the
exception message on failure. -/

/-- Snapshot of everything `verify_repo` and its checkers read from the
repository at `path`. -/
structure RepoEnv where
  /-- Result of `git ls-files`, already split into lines; `error` models the
  command raising. -/
  lsFiles : Except String (List String)
  /-- Result of `os.listdir(path)` used as fallback. -/
  listing : List String
  /-- Content of the `LICENSE` file, `none` when `os.path.isfile` is false. -/
  licenseContent : Option String
  /-- Content of the `README.md` file, `none` when absent. -/
  readmeContent : Option String
  /-- Result of `git remote get-url origin`, stripped; `error` models the
  command raising. -/
  originUrl : Except String String
  /-- `os.path.basename(os.path.abspath(path))`. -/
  basename : String
  /-- Result of `get_main_commits`: `git rev-parse --verify main` followed by
  `git rev-list main`, split into non-empty lines; `error` models either
  command raising. -/
  mainCommits : Except String (List String)
  /-- Result of `get_tags`: each local tag name paired with the commit sha it
  resolves to; `error` models one of the underlying git commands raising. -/
  tagList : Except String (List (String × String))

/-- Embedding of the `CheckResult` dataclass. -/
structure CheckResult where
  ok : Bool
  errors : List String
deriving DecidableEq, Repr

/-! ## Constants -/

/-- Modelled from the spec: the canonical Unlicense text, the
`UNLICENSE_TEXT` constant of `constants.py` (a module absent from the sources;
the spec describes it as "a specific public-domain license text embedded as a
constant").  No claim depends on the exact wording. -/
def UNLICENSE_TEXT : String :=
  "This is free and unencumbered software released into the public domain.\n\nAnyone is free to copy, modify, publish, use, compile, sell, or\ndistribute this software, either in source code form or as a compiled\nbinary, for any purpose, commercial or non-commercial, and by any\nmeans.\n\nIn jurisdictions that recognize copyright laws, the author or authors\nof this software dedicate any and all copyright interest in the\nsoftware to the public domain. We make this dedication for the benefit\nof the public at large and to the detriment of our heirs and\nsuccessors. We intend this dedication to be an overt act of\nrelinquishment in perpetuity of all present and future rights to this\nsoftware under copyright law.\n\nTHE SOFTWARE IS PROVIDED \"AS IS\", WITHOUT WARRANTY OF ANY KIND,\nEXPRESS OR IMPLIED, INCLUDING BUT NOT LIMITED TO THE WARRANTIES OF\nMERCHANTABILITY, FITNESS FOR A PARTICULAR PURPOSE AND\nNONINFRINGEMENT. IN NO EVENT SHALL THE AUTHORS BE LIABLE FOR ANY\nCLAIM, DAMAGES OR OTHER LIABILITY, WHETHER IN AN ACTION OF CONTRACT,\nTORT OR OTHERWISE, ARISING FROM, OUT OF OR IN CONNECTION WITH THE\nSOFTWARE OR THE USE OR OTHER DEALINGS IN THE SOFTWARE.\n\nFor more information, please refer to <https://unlicense.org/>\n"

/-- The required core files, listed in Python-sorted (code point) order, so
that filtering this list yields the `sorted(missing)` of the source. -/
def coreFiles : List String := ["LICENSE", "README.md", "RULES.md"]

/-- First accepted CI workflow path. -/
def ciYml : String := ".github/workflows/ccverify.yml"

/-- Second accepted CI workflow path. -/
def ciYaml : String := ".github/workflows/ccverify.yaml"

/-- The two accepted CI workflow paths (`ci_paths` in the source). -/
def ciPaths : List String := [ciYml, ciYaml]

/-! ## Small string helpers mirroring Python built-ins -/

/-- Whether `pat` occurs at the head of `hay` (prefix test on char lists). -/
def leadMatch : List Char → List Char → Bool
  | _, [] => true
  | [], _ :: _ => false
  | c :: cs, d :: ds => c = d && leadMatch cs ds

/-- Model of Python `pat in hay` substring containment, on char lists. -/
def hasSubstr : List Char → List Char → Bool
  | [], pat => pat.isEmpty
  | hay@(_ :: rest), pat => leadMatch hay pat || hasSubstr rest pat

/-- Model of Python `pat in hay` on strings. -/
def hasSubstrS (hay pat : String) : Bool :=
  hasSubstr hay.data pat.data

/-- Model of Python `f.startswith(".")`. -/
def startsWithDot (f : String) : Bool :=
  match f.data with
  | c :: _ => c = '.'
  | [] => false

/-- Python `<=` on strings: lexicographic comparison by code point. -/
def pyStrLeL : List Char → List Char → Bool
  | [], _ => true
  | _ :: _, [] => false
  | a :: as, b :: bs =>
    if a.toNat < b.toNat then true
    else if b.toNat < a.toNat then false
    else pyStrLeL as bs

/-- Python `<=` on strings. -/
def pyStrLe (a b : String) : Bool :=
  pyStrLeL a.data b.data

/-- Insert a string into an ascending list (helper for `sortStrings`). -/
def insertStr (x : String) : List String → List String
  | [] => [x]
  | y :: ys => if pyStrLe x y then x :: y :: ys else y :: insertStr x ys

/-- Model of Python `sorted` on a list of strings. -/
def sortStrings (l : List String) : List String :=
  l.foldr insertStr []

/-- Insert a natural number into an ascending list (helper for `sortNats`). -/
def insertNat (x : Nat) : List Nat → List Nat
  | [] => [x]
  | y :: ys => if x ≤ y then x :: y :: ys else y :: insertNat x ys

/-- Model of Python `sorted` on a list of version integers. -/
def sortNats (l : List Nat) : List Nat :=
  l.foldr insertNat []

/-- Model of Python `", ".join(items)`. -/
def joinComma (items : List String) : String :=
  String.intercalate ", " items

/-! ## TAG_RE -/

/-- Numeric value of a digit character. -/
def digitVal (c : Char) : Nat := c.toNat - '0'.toNat

/-- Value of a non-empty digit string (`int(...)` on the regex group). -/
def digitsToNat (l : List Char) : Nat :=
  l.foldl (fun acc c => 10 * acc + digitVal c) 0

/-- Embedding of `TAG_RE = re.compile(r"^v(\d+)$")` applied with `.match`
(anchored at both ends): `some n` when the name is `v` followed by one or
more digits, whose integer value is `n`; `none` otherwise.  (`\d` is modelled
as ASCII digits; no claim involves non-ASCII digit characters.)  Note that
leading zeros are accepted: `v01` matches with value `1`. -/
def TAG_RE_match (name : String) : Option Nat :=
  match name.data with
  | 'v' :: rest => if !rest.isEmpty && rest.all Char.isDigit then some (digitsToNat rest) else none
  | _ => none

/-! ## get_repo_name -/

/-- Whether `suf` is a suffix of `l` (model of Python `str.endswith`). -/
def endsWithL (l suf : List Char) : Bool :=
  leadMatch l.reverse suf.reverse

/-- Model of `if s.endswith(".git"): s = s[:-len(".git")]`. -/
def stripDotGit (s : String) : String :=
  if endsWithL s.data ['.', 'g', 'i', 't'] then ⟨s.data.take (s.data.length - 4)⟩ else s

/-- Characters after the last `/`, or `none` when the string has no `/`. -/
def afterLastSlash : List Char → Option (List Char)
  | [] => none
  | c :: rest =>
    match afterLastSlash rest with
    | some s => some s
    | none => if c = '/' then some rest else none

/-- Model of `re.search(r"/([^/]+?)(?:\.git)?$", origin)` and the extraction
of group 1: the (non-empty) last path segment, with one `.git` suffix
consumed by the optional group when that leaves the group non-empty. -/
def originRegexName (url : String) : Option String :=
  match afterLastSlash url.data with
  | none => none
  | some seg =>
    if seg.isEmpty then none
    else if endsWithL seg ['.', 'g', 'i', 't'] && seg.length > 4 then
      some ⟨seg.take (seg.length - 4)⟩
    else some ⟨seg⟩

/-- The `origin`-URL branch of `get_repo_name` with its basename fallback:
tries the remote URL regex, falls back to `os.path.basename` on adapter
failure or regex mismatch. -/
def repo_name_from_git (env : RepoEnv) : String :=
  match env.originUrl with
  | .error _ => env.basename
  | .ok origin =>
    match originRegexName origin with
    | some name => stripDotGit name
    | none => env.basename

/-- Embedding of `get_repo_name`: the override wins when truthy (Python
`if override:` — the empty string falls through), else the git-derived name,
else the directory basename. -/
def get_repo_name (env : RepoEnv) (override : Option String) : String :=
  match override with
  | some n => if n = "" then repo_name_from_git env else n
  | none => repo_name_from_git env

/-! ## Checkers -/

/-- Embedding of `check_tracked_files`: the tracked set is `git ls-files`
output, or on failure the non-dot top-level directory entries; three
independent conditions each contribute at most one error, in source order. -/
def check_tracked_files (env : RepoEnv) : List String :=
  let files : List String :=
    match env.lsFiles with
    | .ok out => out
    | .error _ => env.listing.filter (fun f => !startsWithDot f)
  let tracked := files.dedup
  let missing := coreFiles.filter (fun f => !tracked.contains f)
  let m1 : List String :=
    if missing.isEmpty then []
    else ["Missing required files: " ++ joinComma missing ++ "."]
  let has_ci := tracked.contains ciYml || tracked.contains ciYaml
  let m2 : List String :=
    if has_ci then []
    else ["Missing required CI workflow: .github/workflows/ccverify.yml (or .yaml)."]
  let extra := sortStrings (tracked.filter (fun f => !coreFiles.contains f && !ciPaths.contains f))
  let m3 : List String :=
    if extra.isEmpty then []
    else ["Extra tracked files not allowed: " ++ joinComma extra ++ "."]
  m1 ++ m2 ++ m3

/-- Embedding of `check_license`. -/
def check_license (env : RepoEnv) : List String :=
  match env.licenseContent with
  | none => ["LICENSE file missing."]
  | some raw =>
    if normalize_text raw ≠ normalize_text UNLICENSE_TEXT then
      ["LICENSE is not the Unlicense (content mismatch)."]
    else []

/-- Embedding of `check_readme_install`. -/
def check_readme_install (env : RepoEnv) (repo_name : String) : List String :=
  match env.readmeContent with
  | none => ["README.md file missing."]
  | some readme =>
    (if hasSubstrS readme "pipx install cursorcult" then []
     else ["README.md must include installation line: \x27pipx install cursorcult\x27."]) ++
    (if hasSubstrS readme ("cursorcult link " ++ repo_name) then []
     else ["README.md must include link example: \x27cursorcult link " ++ repo_name ++
           "\x27 (adjust for rule name)."])

/-- Embedding of `get_main_commits` (a fallible adapter query). -/
def get_main_commits (env : RepoEnv) : Except String (List String) :=
  env.mainCommits

/-- Embedding of `get_tags` (a fallible adapter query). -/
def get_tags (env : RepoEnv) : Except String (List (String × String)) :=
  env.tagList

/-- The pure body of `check_tags` after `tags = get_tags(path)` returned:
invalid-name errors, the off-main check, the untagged-commit count, and the
contiguity check, in source order. -/
def check_tags_core (tags : List (String × String)) (main_commits : List String) : List String :=
  if tags.isEmpty then []
  else
    let tag_names := tags.map Prod.fst
    let invalid := (tag_names.filter (fun n => (TAG_RE_match n).isNone)).map
      (fun n => "Invalid tag name \x27" ++ n ++ "\x27. Only v0, v1, v2, ... are allowed.")
    let main_set := main_commits.dedup
    let tag_commits := (tags.map Prod.snd).dedup
    let off_main := tag_commits.filter (fun c => !main_set.contains c)
    let e2 : List String :=
      if off_main.isEmpty then [] else ["All vN tags must point to commits on main."]
    let untagged := main_set.filter (fun c => !tag_commits.contains c)
    let e3 : List String :=
      if untagged.isEmpty then []
      else ["Main has " ++ toString untagged.length ++
            " untagged commits. Every main commit must have a vN tag."]
    let versions := sortNats (tag_names.filterMap TAG_RE_match)
    let e4 : List String :=
      if versions.isEmpty then []
      else if versions = List.range (versions.foldr Nat.max 0 + 1) then []
      else ["vN tags must be contiguous from v0. Found: " ++
            joinComma (versions.map (fun v => "v" ++ toString v)) ++ "."]
    invalid ++ e2 ++ e3 ++ e4

/-- Embedding of `check_tags`: fetches the tags (which may raise, propagated
as `error`) and runs the pure body. -/
def check_tags (env : RepoEnv) (main_commits : List String) : Except String (List String) :=
  match get_tags env with
  | .error e => .error e
  | .ok tags => .ok (check_tags_core tags main_commits)

/-- The git-dependent tail of a verification run: the tag checker's errors,
or the single converted failure in their place. -/
def gitSection (env : RepoEnv) : List String :=
  match get_main_commits env with
  | .error e => ["Git checks failed: " ++ e]
  | .ok mc =>
    match check_tags env mc with
    | .error e => ["Git checks failed: " ++ e]
    | .ok tagErrs => tagErrs

/-- Embedding of `verify_repo`: accumulates the errors of the four checkers
in source order, converting an adapter failure in the git part into a single
error, and reports `ok` iff no error was collected. -/
def verify_repo (env : RepoEnv) (name_override : Option String) : CheckResult :=
  let repo_name := get_repo_name env name_override
  let errors : List String := []
  let errors := errors ++ check_tracked_files env
  let errors := errors ++ check_license env
  let errors := errors ++ check_readme_install env repo_name
  let errors :=
    match get_main_commits env with
    | .error e => errors ++ ["Git checks failed: " ++ e]
    | .ok mc =>
      match check_tags env mc with
      | .error e => errors ++ ["Git checks failed: " ++ e]
      | .ok tagErrs => errors ++ tagErrs
  { ok := errors.isEmpty, errors := errors }

/-! ## Named pieces of the checkers

These definitions name the sub-expressions of `check_tracked_files` and
`check_tags_core` so that theorems can speak about individual error
conditions; decomposition lemmas below relate them to the checkers. -/

/-- The tracked-file set a run works with: `git ls-files` output, or the
non-dot directory entries in fallback mode, deduplicated. -/
def trackedFiles (env : RepoEnv) : List String :=
  (match env.lsFiles with
   | .ok out => out
   | .error _ => env.listing.filter (fun f => !startsWithDot f)).dedup

/-- The sorted missing core files. -/
def missingFiles (env : RepoEnv) : List String :=
  coreFiles.filter (fun f => !(trackedFiles env).contains f)

/-- The message for a missing CI workflow. -/
def ciMissingMsg : String :=
  "Missing required CI workflow: .github/workflows/ccverify.yml (or .yaml)."

/-- The sorted extra tracked files. -/
def extraFiles (env : RepoEnv) : List String :=
  sortStrings ((trackedFiles env).filter (fun f => !coreFiles.contains f && !ciPaths.contains f))

/-- The invalid-tag-name message for one name. -/
def invalidTagError (n : String) : String :=
  "Invalid tag name \x27" ++ n ++ "\x27. Only v0, v1, v2, ... are allowed."

/-- The invalid-name errors of the tag checker, in tag order. -/
def invalidErrors (tags : List (String × String)) : List String :=
  ((tags.map Prod.fst).filter (fun n => (TAG_RE_match n).isNone)).map invalidTagError

/-- The off-main message. -/
def offMainMsg : String := "All vN tags must point to commits on main."

/-- The off-main error of the tag checker. -/
def offMainErrors (tags : List (String × String)) (mc : List String) : List String :=
  if ((tags.map Prod.snd).dedup.filter (fun c => !mc.dedup.contains c)).isEmpty then []
  else [offMainMsg]

/-- The untagged-commits message for a given count. -/
def untaggedMsg (n : Nat) : String :=
  "Main has " ++ toString n ++ " untagged commits. Every main commit must have a vN tag."

/-- The distinct main commits targeted by no tag. -/
def untaggedCommits (tags : List (String × String)) (mc : List String) : List String :=
  mc.dedup.filter (fun c => !(tags.map Prod.snd).dedup.contains c)

/-- The untagged-commits error of the tag checker. -/
def untaggedErrors (tags : List (String × String)) (mc : List String) : List String :=
  if (untaggedCommits tags mc).isEmpty then []
  else [untaggedMsg (untaggedCommits tags mc).length]

/-- The ascending version integers parsed from the pattern-matching names. -/
def versionsOf (tags : List (String × String)) : List Nat :=
  sortNats ((tags.map Prod.fst).filterMap TAG_RE_match)

/-- The contiguity message for a given sorted version list. -/
def contiguityMsg (vs : List Nat) : String :=
  "vN tags must be contiguous from v0. Found: " ++
    joinComma (vs.map (fun v => "v" ++ toString v)) ++ "."

/-- The contiguity error of the tag checker. -/
def contiguityErrors (tags : List (String × String)) : List String :=
  if (versionsOf tags).isEmpty then []
  else if versionsOf tags = List.range ((versionsOf tags).foldr Nat.max 0 + 1) then []
  else [contiguityMsg (versionsOf tags)]

/-! ## Sample environments used by witnesses -/

/-- A repository whose git queries all fail. -/
def envGitFail : RepoEnv :=
  { lsFiles := .ok ["LICENSE"], listing := [], licenseContent := none,
    readmeContent := none, originUrl := .error "no origin", basename := "repo",
    mainCommits := .error "fatal: not a git repository", tagList := .error "boom" }

/-- A repository with two main commits and no tags. -/
def envNoTags : RepoEnv :=
  { lsFiles := .ok [], listing := [], licenseContent := none,
    readmeContent := none, originUrl := .error "no origin", basename := "repo",
    mainCommits := .ok ["a", "b"], tagList := .ok [] }

/-- A repository with tags `v0` and `v2` fully covering a two-commit main. -/
def envGapTags : RepoEnv :=
  { lsFiles := .ok [], listing := [], licenseContent := none,
    readmeContent := none, originUrl := .error "no origin", basename := "repo",
    mainCommits := .ok ["c1", "c2"], tagList := .ok [("v0", "c1"), ("v2", "c2")] }

/-- A repository where `git ls-files` fails and the directory listing is the
fallback. -/
def envFallback : RepoEnv :=
  { lsFiles := .error "git ls-files failed", listing := ["LICENSE", "README.md", ".github"],
    licenseContent := none, readmeContent := none, originUrl := .error "no origin",
    basename := "repo", mainCommits := .error "no main", tagList := .error "boom" }

/-- A repository with one invalidly named tag on its single main commit. -/
def envBadTag : RepoEnv :=
  { lsFiles := .ok [], listing := [], licenseContent := none,
    readmeContent := none, originUrl := .error "no origin", basename := "repo",
    mainCommits := .ok ["a"], tagList := .ok [("version1", "a")] }

/-! ## Decomposition lemmas -/

theorem check_tracked_files_decomp (env : RepoEnv) :
    check_tracked_files env =
      (if (missingFiles env).isEmpty then []
       else ["Missing required files: " ++ joinComma (missingFiles env) ++ "."]) ++
      (if (trackedFiles env).contains ciYml || (trackedFiles env).contains ciYaml then []
       else [ciMissingMsg]) ++
      (if (extraFiles env).isEmpty then []
       else ["Extra tracked files not allowed: " ++ joinComma (extraFiles env) ++ "."]) := by
  rfl

theorem check_tags_core_decomp (tags : List (String × String)) (mc : List String)
    (h : tags ≠ []) :
    check_tags_core tags mc =
      invalidErrors tags ++ offMainErrors tags mc ++ untaggedErrors tags mc ++
        contiguityErrors tags := by
  unfold check_tags_core
  rw [if_neg (by simpa [List.isEmpty_iff] using h)]
  rfl

/-! ## Claims -/

/-- C1: for every repository environment and optional name override,
`verify_repo` returns a `CheckResult` whose `errors` list is the
concatenation, in this fixed order, of the error lists of the tracked-file
checker, the license checker, the README checker, and the tag checker (or
the single git-failure error in its place), and whose `ok` field is true if
and only if that list is empty. -/
theorem claim1_verify_repo_aggregation (env : RepoEnv) (ov : Option String) :
    (verify_repo env ov).errors =
      check_tracked_files env ++ check_license env ++
        check_readme_install env (get_repo_name env ov) ++ gitSection env ∧
    ((verify_repo env ov).ok = true ↔ (verify_repo env ov).errors = []) := by
  unfold verify_repo gitSection
  cases hm : get_main_commits env with
  | error e => simp [List.isEmpty_iff]
  | ok mc =>
    cases ht : check_tags env mc with
    | error e => simp [ht, List.isEmpty_iff]
    | ok tagErrs => simp [ht, List.isEmpty_iff]

/-- C2: when computing the main-branch commits or running the tag checker
fails with an adapter error, `verify_repo` still reports the errors of the
three non-git checkers and appends exactly one error beginning
`"Git checks failed: "` carrying the underlying message; the run returns a
result rather than aborting. -/
theorem claim2_git_failure_recovered (env : RepoEnv) (ov : Option String) (e : String)
    (h : get_main_commits env = .error e ∨
         ∃ mc, get_main_commits env = .ok mc ∧ check_tags env mc = .error e) :
    (verify_repo env ov).errors =
      check_tracked_files env ++ check_license env ++
        check_readme_install env (get_repo_name env ov) ++ ["Git checks failed: " ++ e] := by
  unfold verify_repo
  rcases h with h | ⟨mc, hmc, hct⟩
  · simp [h]
  · simp [hmc, hct]

/-- C2 witness: a concrete run whose `git rev-parse` fails. -/
theorem claim2_witness :
    (get_main_commits envGitFail = .error "fatal: not a git repository" ∨
      ∃ mc, get_main_commits envGitFail = .ok mc ∧
        check_tags envGitFail mc = .error "fatal: not a git repository") ∧
    (verify_repo envGitFail none).errors =
      check_tracked_files envGitFail ++ check_license envGitFail ++
        check_readme_install envGitFail (get_repo_name envGitFail none) ++
        ["Git checks failed: " ++ "fatal: not a git repository"] :=
  ⟨Or.inl rfl,
   claim2_git_failure_recovered envGitFail none "fatal: not a git repository" (Or.inl rfl)⟩

/-- C5: when the repository has no tags at all, the tag checker returns an
empty error list, whatever the main-branch commit list contains. -/
theorem claim5_zero_tags_pass (env : RepoEnv) (mc : List String)
    (h : get_tags env = .ok []) :
    check_tags env mc = .ok [] := by
  unfold check_tags
  rw [h]
  rfl

/-- C5 witness: a concrete untagged repository with a non-empty main. -/
theorem claim5_witness :
    get_tags envNoTags = .ok [] ∧ check_tags envNoTags ["a", "b"] = .ok [] :=
  ⟨rfl, claim5_zero_tags_pass envNoTags ["a", "b"] rfl⟩

/-! ## Distinguishing the checker messages by their first character -/

theorem head_of_append_str (a b : String) (c : Char)
    (h : a.data.head? = some c) : (a ++ b).data.head? = some c := by
  have : (a ++ b).data = a.data ++ b.data := rfl
  rw [this, List.head?_append, h]
  rfl

theorem ne_of_head_ne (a b : String) (ca cb : Char)
    (ha : a.data.head? = some ca) (hb : b.data.head? = some cb)
    (hc : ca ≠ cb) : a ≠ b := by
  intro h
  rw [h, hb] at ha
  exact hc (Option.some.inj ha.symm)

theorem invalidTagError_head (n : String) : (invalidTagError n).data.head? = some 'I' := by
  unfold invalidTagError
  apply head_of_append_str
  apply head_of_append_str
  decide

theorem untaggedMsg_head (k : Nat) : (untaggedMsg k).data.head? = some 'M' := by
  unfold untaggedMsg
  apply head_of_append_str
  apply head_of_append_str
  decide

theorem contiguityMsg_head (vs : List Nat) : (contiguityMsg vs).data.head? = some 'v' := by
  unfold contiguityMsg
  apply head_of_append_str
  apply head_of_append_str
  decide

theorem offMainMsg_head : offMainMsg.data.head? = some 'A' := by decide

/-! ## C10 -/

/-- C10: when listing tracked files via git fails, the fallback directory
listing is filtered to non-dot entries, so it can never contain either CI
workflow path (both start with `.github/...`), and the missing-CI-workflow
error is emitted unconditionally. -/
theorem claim10_fallback_always_missing_ci (env : RepoEnv) (e : String)
    (h : env.lsFiles = .error e) :
    ciYml ∉ trackedFiles env ∧ ciYaml ∉ trackedFiles env ∧
      ciMissingMsg ∈ check_tracked_files env := by
  have htr : trackedFiles env = (env.listing.filter (fun f => !startsWithDot f)).dedup := by
    unfold trackedFiles
    rw [h]
  have hnotin : ∀ f : String, startsWithDot f = true → f ∉ trackedFiles env := by
    intro f hdot hf
    rw [htr] at hf
    have := List.of_mem_filter (List.mem_dedup.mp hf)
    rw [hdot] at this
    exact absurd this (by decide)
  have h1 : ciYml ∉ trackedFiles env := hnotin _ (by decide)
  have h2 : ciYaml ∉ trackedFiles env := hnotin _ (by decide)
  refine ⟨h1, h2, ?_⟩
  rw [check_tracked_files_decomp]
  have hc1 : (trackedFiles env).contains ciYml = false := by
    cases hc : (trackedFiles env).contains ciYml with
    | false => rfl
    | true => exact absurd (List.elem_iff.mp hc) h1
  have hc2 : (trackedFiles env).contains ciYaml = false := by
    cases hc : (trackedFiles env).contains ciYaml with
    | false => rfl
    | true => exact absurd (List.elem_iff.mp hc) h2
  rw [hc1, hc2]
  simp

/-- C10 witness: a concrete repository in fallback mode. -/
theorem claim10_witness :
    envFallback.lsFiles = .error "git ls-files failed" ∧
    (ciYml ∉ trackedFiles envFallback ∧ ciYaml ∉ trackedFiles envFallback ∧
      ciMissingMsg ∈ check_tracked_files envFallback) :=
  ⟨rfl, claim10_fallback_always_missing_ci envFallback "git ls-files failed" rfl⟩

/-! ## C7 and C9: the tag checker on a non-empty tag set -/

theorem not_contains_dedup_iff (l : List String) (a : String) :
    ((!l.dedup.contains a) = true) ↔ a ∉ l := by
  simp [List.elem_iff]

theorem check_tags_ok_inv (env : RepoEnv) (tags : List (String × String))
    (mc errs : List String) (htags : get_tags env = .ok tags)
    (hrun : check_tags env mc = .ok errs) :
    errs = check_tags_core tags mc := by
  unfold check_tags at hrun
  rw [htags] at hrun
  exact (Except.ok.inj hrun).symm

theorem contiguityMsg_not_mem_invalid (tags : List (String × String)) (vs : List Nat) :
    contiguityMsg vs ∉ invalidErrors tags := by
  intro hmem
  obtain ⟨n, -, hEq⟩ := List.mem_map.mp hmem
  exact ne_of_head_ne _ _ 'I' 'v' (invalidTagError_head n) (contiguityMsg_head vs)
    (by decide) hEq

theorem contiguityMsg_not_mem_offMain (tags : List (String × String)) (mc : List String)
    (vs : List Nat) : contiguityMsg vs ∉ offMainErrors tags mc := by
  unfold offMainErrors
  split
  · simp
  · intro hmem
    rw [List.mem_singleton] at hmem
    exact ne_of_head_ne _ _ 'v' 'A' (contiguityMsg_head vs) offMainMsg_head (by decide) hmem

theorem contiguityMsg_not_mem_untagged (tags : List (String × String)) (mc : List String)
    (vs : List Nat) : contiguityMsg vs ∉ untaggedErrors tags mc := by
  unfold untaggedErrors
  split
  · simp
  · intro hmem
    rw [List.mem_singleton] at hmem
    exact ne_of_head_ne _ _ 'v' 'M' (contiguityMsg_head vs)
      (untaggedMsg_head (untaggedCommits tags mc).length) (by decide) hmem

/-- C7: on a non-empty tag set the sorted parsed versions must be exactly
`[0, 1, ..., max]`: the contiguity error (listing the sorted versions) is in
the output precisely when the version list is non-empty and differs from that
range; and the tag set `{v0 ↦ c1, v2 ↦ c2}` on a fully tagged two-commit main
yields exactly the contiguity error naming v0 and v2, with no off-main or
untagged-commit error. -/
theorem claim7_tag_contiguity (env : RepoEnv) (tags : List (String × String))
    (mc errs : List String) (htags : get_tags env = .ok tags)
    (hne : tags ≠ []) (hrun : check_tags env mc = .ok errs) :
    (contiguityMsg (versionsOf tags) ∈ errs ↔
      versionsOf tags ≠ [] ∧
        versionsOf tags ≠ List.range ((versionsOf tags).foldr Nat.max 0 + 1)) ∧
    check_tags envGapTags ["c1", "c2"] = .ok [contiguityMsg [0, 2]] := by
  constructor
  · rw [check_tags_ok_inv env tags mc errs htags hrun, check_tags_core_decomp tags mc hne]
    simp only [List.mem_append]
    rw [iff_iff_implies_and_implies]
    constructor
    · intro hmem
      rcases hmem with ((h | h) | h) | h
      · exact absurd h (contiguityMsg_not_mem_invalid tags _)
      · exact absurd h (contiguityMsg_not_mem_offMain tags mc _)
      · exact absurd h (contiguityMsg_not_mem_untagged tags mc _)
      · unfold contiguityErrors at h
        split at h
        · simp at h
        · split at h
          · simp at h
          · rename_i hv1 hv2
            exact ⟨fun hE => hv1 (by rw [hE]; rfl), hv2⟩
    · rintro ⟨hne2, hnr⟩
      refine Or.inr ?_
      unfold contiguityErrors
      rw [if_neg (by simpa [List.isEmpty_iff] using hne2), if_neg hnr]
      exact List.mem_singleton.mpr rfl
  · rfl

/-- C7 witness: instantiated at the gap-tagged repository. -/
theorem claim7_witness :
    get_tags envGapTags = .ok [("v0", "c1"), ("v2", "c2")] ∧
    check_tags envGapTags ["c1", "c2"] = .ok [contiguityMsg [0, 2]] ∧
    (contiguityMsg (versionsOf [("v0", "c1"), ("v2", "c2")]) ∈ [contiguityMsg [0, 2]] ↔
      versionsOf [("v0", "c1"), ("v2", "c2")] ≠ [] ∧
        versionsOf [("v0", "c1"), ("v2", "c2")] ≠
          List.range ((versionsOf [("v0", "c1"), ("v2", "c2")]).foldr Nat.max 0 + 1)) :=
  ⟨rfl, rfl,
   (claim7_tag_contiguity envGapTags [("v0", "c1"), ("v2", "c2")] ["c1", "c2"]
      [contiguityMsg [0, 2]] rfl (by decide) rfl).1⟩

theorem offMainMsg_not_mem_invalid (tags : List (String × String)) :
    offMainMsg ∉ invalidErrors tags := by
  intro hmem
  obtain ⟨n, -, hEq⟩ := List.mem_map.mp hmem
  exact ne_of_head_ne _ _ 'I' 'A' (invalidTagError_head n) offMainMsg_head (by decide) hEq

theorem offMainMsg_not_mem_untagged (tags : List (String × String)) (mc : List String) :
    offMainMsg ∉ untaggedErrors tags mc := by
  unfold untaggedErrors
  split
  · simp
  · intro hmem
    rw [List.mem_singleton] at hmem
    exact ne_of_head_ne _ _ 'A' 'M' offMainMsg_head
      (untaggedMsg_head (untaggedCommits tags mc).length) (by decide) hmem.symm.symm

theorem offMainMsg_not_mem_contiguity (tags : List (String × String)) :
    offMainMsg ∉ contiguityErrors tags := by
  unfold contiguityErrors
  split
  · simp
  · split
    · simp
    · intro hmem
      rw [List.mem_singleton] at hmem
      exact ne_of_head_ne _ _ 'A' 'v' offMainMsg_head (contiguityMsg_head _) (by decide) hmem

theorem untaggedMsg_not_mem_invalid (tags : List (String × String)) (k : Nat) :
    untaggedMsg k ∉ invalidErrors tags := by
  intro hmem
  obtain ⟨n, -, hEq⟩ := List.mem_map.mp hmem
  exact ne_of_head_ne _ _ 'I' 'M' (invalidTagError_head n) (untaggedMsg_head k) (by decide) hEq

theorem untaggedMsg_not_mem_offMain (tags : List (String × String)) (mc : List String)
    (k : Nat) : untaggedMsg k ∉ offMainErrors tags mc := by
  unfold offMainErrors
  split
  · simp
  · intro hmem
    rw [List.mem_singleton] at hmem
    exact ne_of_head_ne _ _ 'M' 'A' (untaggedMsg_head k) offMainMsg_head (by decide) hmem

theorem untaggedMsg_not_mem_contiguity (tags : List (String × String)) (k : Nat) :
    untaggedMsg k ∉ contiguityErrors tags := by
  unfold contiguityErrors
  split
  · simp
  · split
    · simp
    · intro hmem
      rw [List.mem_singleton] at hmem
      exact ne_of_head_ne _ _ 'M' 'v' (untaggedMsg_head k) (contiguityMsg_head _) (by decide) hmem

/-- C9: the coverage checks run over the commits of all tags, validly and
invalidly named alike: the off-main error appears iff some tag (any tag)
points at a commit outside the main history, and the untagged-commits error
(carrying the count of distinct untagged main commits) appears iff some main
commit is the target of no tag at all. -/
theorem claim9_coverage_uses_all_tags (env : RepoEnv) (tags : List (String × String))
    (mc errs : List String) (htags : get_tags env = .ok tags)
    (hne : tags ≠ []) (hrun : check_tags env mc = .ok errs) :
    (offMainMsg ∈ errs ↔ ∃ t ∈ tags, t.2 ∉ mc) ∧
    (untaggedMsg (untaggedCommits tags mc).length ∈ errs ↔
      ∃ c ∈ mc, ∀ t ∈ tags, t.2 ≠ c) := by
  rw [check_tags_ok_inv env tags mc errs htags hrun, check_tags_core_decomp tags mc hne]
  have hOffIff : ¬((tags.map Prod.snd).dedup.filter
      (fun c => !mc.dedup.contains c) = []) ↔ ∃ t ∈ tags, t.2 ∉ mc := by
    rw [List.filter_eq_nil_iff]
    push_neg
    constructor
    · rintro ⟨sha, hsha, hnc⟩
      rw [List.mem_dedup] at hsha
      obtain ⟨t, ht, rfl⟩ := List.mem_map.mp hsha
      exact ⟨t, ht, (not_contains_dedup_iff mc t.2).mp hnc⟩
    · rintro ⟨t, ht, hnot⟩
      exact ⟨t.2, List.mem_dedup.mpr (List.mem_map.mpr ⟨t, ht, rfl⟩),
        (not_contains_dedup_iff mc t.2).mpr hnot⟩
  have hUntIff : ¬(untaggedCommits tags mc = []) ↔ ∃ c ∈ mc, ∀ t ∈ tags, t.2 ≠ c := by
    unfold untaggedCommits
    rw [List.filter_eq_nil_iff]
    push_neg
    constructor
    · rintro ⟨c, hc, hnc⟩
      rw [List.mem_dedup] at hc
      refine ⟨c, hc, fun t ht hsha => ?_⟩
      exact (not_contains_dedup_iff (tags.map Prod.snd) c).mp hnc
        (List.mem_map.mpr ⟨t, ht, hsha⟩)
    · rintro ⟨c, hc, hnot⟩
      refine ⟨c, List.mem_dedup.mpr hc, (not_contains_dedup_iff (tags.map Prod.snd) c).mpr ?_⟩
      intro hcont
      obtain ⟨t, ht, hsha⟩ := List.mem_map.mp hcont
      exact hnot t ht hsha
  constructor
  · simp only [List.mem_append]
    rw [iff_iff_implies_and_implies]
    constructor
    · intro hmem
      rcases hmem with ((h | h) | h) | h
      · exact absurd h (offMainMsg_not_mem_invalid tags)
      · unfold offMainErrors at h
        split at h
        · simp at h
        · rename_i hfil
          rw [List.isEmpty_iff] at hfil
          exact hOffIff.mp hfil
      · exact absurd h (offMainMsg_not_mem_untagged tags mc)
      · exact absurd h (offMainMsg_not_mem_contiguity tags)
    · intro hex
      refine Or.inl (Or.inl (Or.inr ?_))
      unfold offMainErrors
      rw [if_neg (by rw [List.isEmpty_iff]; exact hOffIff.mpr hex)]
      exact List.mem_singleton.mpr rfl
  · simp only [List.mem_append]
    rw [iff_iff_implies_and_implies]
    constructor
    · intro hmem
      rcases hmem with ((h | h) | h) | h
      · exact absurd h (untaggedMsg_not_mem_invalid tags _)
      · exact absurd h (untaggedMsg_not_mem_offMain tags mc _)
      · unfold untaggedErrors at h
        split at h
        · simp at h
        · rename_i hfil
          rw [List.isEmpty_iff] at hfil
          exact hUntIff.mp hfil
      · exact absurd h (untaggedMsg_not_mem_contiguity tags _)
    · intro hex
      refine Or.inl (Or.inr ?_)
      unfold untaggedErrors
      rw [if_neg (by rw [List.isEmpty_iff]; exact hUntIff.mpr hex)]
      exact List.mem_singleton.mpr rfl

/-- C9 witness: a tag whose name is invalid but whose commit is off main
still triggers the off-main error, and the sole untagged main commit is
counted. -/
theorem claim9_witness :
    get_tags envBadTag = .ok [("version1", "a")] ∧
    check_tags envBadTag ["a", "b"] =
      .ok (check_tags_core [("version1", "a")] ["a", "b"]) ∧
    ((offMainMsg ∈ check_tags_core [("version1", "a")] ["a", "b"] ↔
        ∃ t ∈ [(("version1" : String), ("a" : String))], t.2 ∉ ["a", "b"]) ∧
      (untaggedMsg (untaggedCommits [("version1", "a")] ["a", "b"]).length ∈
          check_tags_core [("version1", "a")] ["a", "b"] ↔
        ∃ c ∈ ["a", "b"], ∀ t ∈ [(("version1" : String), ("a" : String))], t.2 ≠ c)) :=
  ⟨rfl, rfl,
   claim9_coverage_uses_all_tags envBadTag [("version1", "a")] ["a", "b"]
     (check_tags_core [("version1", "a")] ["a", "b"]) rfl (by decide) rfl⟩

/-! ## C6: invalid tag names -/

/-- C6 counterexample: the claim asserts that the tag name `v01` draws an
"invalid tag name" error, but `TAG_RE` (`^v(\d+)$`) accepts `v01` — it parses
as version 1 — so the checker emits no invalid-name error for it; the whole
output at this input is just the contiguity error for `[1]`. -/
theorem claim6_counterexample :
    TAG_RE_match "v01" = some 1 ∧
    invalidTagError "v01" ∉ check_tags_core [("v01", "a")] ["a"] ∧
    check_tags_core [("v01", "a")] ["a"] = [contiguityMsg [1]] := by
  refine ⟨rfl, ?_, rfl⟩
  decide

/-- C6 as amended: a tag name is flagged "invalid tag name" exactly when it
fails the `v<digits>` pattern (for example `version1`; `v01` matches the
pattern and counts as version 1 instead), and a non-matching name contributes
nothing to the version sequence used by the contiguity check, which is a
total computation. -/
theorem claim6_amended_invalid_names (env : RepoEnv) (tags : List (String × String))
    (mc errs : List String) (name sha : String)
    (htags : get_tags env = .ok tags) (hmem : (name, sha) ∈ tags)
    (hbad : TAG_RE_match name = none) (hrun : check_tags env mc = .ok errs) :
    invalidTagError name ∈ errs ∧
      ∀ rest : List (String × String), versionsOf ((name, sha) :: rest) = versionsOf rest := by
  constructor
  · rw [check_tags_ok_inv env tags mc errs htags hrun,
        check_tags_core_decomp tags mc (by rintro rfl; cases hmem)]
    refine List.mem_append.mpr (Or.inl (List.mem_append.mpr (Or.inl
      (List.mem_append.mpr (Or.inl ?_)))))
    unfold invalidErrors
    refine List.mem_map.mpr ⟨name, ?_, rfl⟩
    refine List.mem_filter.mpr ⟨List.mem_map.mpr ⟨(name, sha), hmem, rfl⟩, ?_⟩
    rw [hbad]
    rfl
  · intro rest
    unfold versionsOf
    simp [List.filterMap_cons, hbad]

/-- C6 witness: the invalidly named tag `version1` is flagged. -/
theorem claim6_witness :
    (get_tags envBadTag = .ok [("version1", "a")] ∧
      ("version1", "a") ∈ [(("version1" : String), ("a" : String))] ∧
      TAG_RE_match "version1" = none ∧
      check_tags envBadTag ["a"] = .ok (check_tags_core [("version1", "a")] ["a"])) ∧
    (invalidTagError "version1" ∈ check_tags_core [("version1", "a")] ["a"] ∧
      ∀ rest, versionsOf (("version1", "a") :: rest) = versionsOf rest) :=
  ⟨⟨rfl, List.mem_singleton.mpr rfl, rfl, rfl⟩,
   claim6_amended_invalid_names envBadTag [("version1", "a")] ["a"]
     (check_tags_core [("version1", "a")] ["a"]) "version1" "a" rfl
     (List.mem_singleton.mpr rfl) rfl rfl⟩

/-! ## C8: the tracked-file checker -/

theorem contains_iff (l : List String) (a : String) : l.contains a = true ↔ a ∈ l :=
  List.elem_iff

theorem not_contains_iff (l : List String) (a : String) :
    ((!l.contains a) = true) ↔ a ∉ l := by
  simp [List.elem_iff]

theorem pyStrLeL_cons_iff (x y : Char) (xs ys : List Char) :
    pyStrLeL (x :: xs) (y :: ys) = true ↔
      x.toNat < y.toNat ∨ (x.toNat = y.toNat ∧ pyStrLeL xs ys = true) := by
  have e : pyStrLeL (x :: xs) (y :: ys) =
      if x.toNat < y.toNat then true
      else if y.toNat < x.toNat then false
      else pyStrLeL xs ys := rfl
  rw [e]
  rcases Nat.lt_trichotomy x.toNat y.toNat with h | h | h
  · rw [if_pos h]
    simp [h]
  · rw [if_neg (by omega), if_neg (by omega)]
    simp [h, (by omega : ¬x.toNat < y.toNat)]
  · rw [if_neg (by omega), if_pos h]
    constructor
    · intro hF
      exact Bool.noConfusion hF
    · rintro (h2 | ⟨h2, -⟩)
      · exact absurd h2 (by omega)
      · exact absurd h2 (by omega)

theorem pyStrLeL_total (a b : List Char) : pyStrLeL a b = true ∨ pyStrLeL b a = true := by
  induction a generalizing b with
  | nil => exact Or.inl rfl
  | cons x xs ih =>
    cases b with
    | nil => exact Or.inr rfl
    | cons y ys =>
      rw [pyStrLeL_cons_iff, pyStrLeL_cons_iff]
      rcases Nat.lt_trichotomy x.toNat y.toNat with h | h | h
      · exact Or.inl (Or.inl h)
      · rcases ih ys with h3 | h3
        · exact Or.inl (Or.inr ⟨h, h3⟩)
        · exact Or.inr (Or.inr ⟨h.symm, h3⟩)
      · exact Or.inr (Or.inl h)

theorem pyStrLeL_trans (a b c : List Char) (h1 : pyStrLeL a b = true)
    (h2 : pyStrLeL b c = true) : pyStrLeL a c = true := by
  induction a generalizing b c with
  | nil => rfl
  | cons x xs ih =>
    cases b with
    | nil => simp [pyStrLeL] at h1
    | cons y ys =>
      cases c with
      | nil => simp [pyStrLeL] at h2
      | cons z zs =>
        rw [pyStrLeL_cons_iff] at h1 h2 ⊢
        rcases h1 with h1 | ⟨h1e, h1r⟩ <;> rcases h2 with h2 | ⟨h2e, h2r⟩
        · exact Or.inl (by omega)
        · exact Or.inl (by omega)
        · exact Or.inl (by omega)
        · exact Or.inr ⟨by omega, ih ys zs h1r h2r⟩

theorem pyStrLe_total (a b : String) : pyStrLe a b = true ∨ pyStrLe b a = true :=
  pyStrLeL_total a.data b.data

theorem pyStrLe_trans (a b c : String) (h1 : pyStrLe a b = true)
    (h2 : pyStrLe b c = true) : pyStrLe a c = true :=
  pyStrLeL_trans a.data b.data c.data h1 h2

theorem mem_insertStr (x : String) (l : List String) (z : String) :
    z ∈ insertStr x l ↔ z = x ∨ z ∈ l := by
  induction l with
  | nil => simp [insertStr]
  | cons y ys ih =>
    unfold insertStr
    split
    · simp [List.mem_cons]
    · simp [List.mem_cons, ih]
      tauto

theorem insertStr_ne_nil (x : String) (l : List String) : insertStr x l ≠ [] := by
  cases l with
  | nil => simp [insertStr]
  | cons y ys =>
    unfold insertStr
    split <;> simp

theorem pairwise_insertStr (x : String) (l : List String)
    (hl : l.Pairwise (fun a b => pyStrLe a b = true)) :
    (insertStr x l).Pairwise (fun a b => pyStrLe a b = true) := by
  induction l with
  | nil => simp [insertStr]
  | cons y ys ih =>
    rcases List.pairwise_cons.mp hl with ⟨hy, hys⟩
    unfold insertStr
    split
    · rename_i h
      refine List.pairwise_cons.mpr ⟨?_, hl⟩
      intro z hz
      rcases List.mem_cons.mp hz with rfl | hz2
      · exact h
      · exact pyStrLe_trans x y z h (hy z hz2)
    · rename_i h
      refine List.pairwise_cons.mpr ⟨?_, ih hys⟩
      intro z hz
      rcases (mem_insertStr x ys z).mp hz with hzx | hz2
      · rw [hzx]
        rcases pyStrLe_total x y with h2 | h2
        · exact absurd h2 h
        · exact h2
      · exact hy z hz2

theorem pairwise_sortStrings (l : List String) :
    (sortStrings l).Pairwise (fun a b => pyStrLe a b = true) := by
  unfold sortStrings
  induction l with
  | nil => simp
  | cons x xs ih => exact pairwise_insertStr x _ ih

theorem sortStrings_eq_nil_iff (l : List String) : sortStrings l = [] ↔ l = [] := by
  unfold sortStrings
  cases l with
  | nil => simp
  | cons x xs => simpa using insertStr_ne_nil x (List.foldr insertStr [] xs)

/-- C8: for every tracked-file set, the tracked-file checker emits the
missing-required-files error exactly when some core file is untracked, the
missing-CI-workflow error exactly when neither workflow path is tracked, and
the extra-tracked-files error exactly when some tracked path is outside the
two groups; each condition contributes exactly one error, independently of
the others, and the listed missing and extra names are in ascending
(Python-sorted) order. -/
theorem claim8_tracked_file_rules (env : RepoEnv) :
    check_tracked_files env =
      (if missingFiles env = [] then []
       else ["Missing required files: " ++ joinComma (missingFiles env) ++ "."]) ++
      (if ciYml ∈ trackedFiles env ∨ ciYaml ∈ trackedFiles env then []
       else [ciMissingMsg]) ++
      (if extraFiles env = [] then []
       else ["Extra tracked files not allowed: " ++ joinComma (extraFiles env) ++ "."]) ∧
    (missingFiles env = [] ↔ ∀ f ∈ coreFiles, f ∈ trackedFiles env) ∧
    (extraFiles env = [] ↔ ∀ f ∈ trackedFiles env, f ∈ coreFiles ∨ f ∈ ciPaths) ∧
    (missingFiles env).Pairwise (fun a b => pyStrLe a b = true) ∧
    (extraFiles env).Pairwise (fun a b => pyStrLe a b = true) := by
  refine ⟨?_, ?_, ?_, ?_, ?_⟩
  · rw [check_tracked_files_decomp]
    by_cases h1 : missingFiles env = [] <;>
      by_cases h2 : ciYml ∈ trackedFiles env ∨ ciYaml ∈ trackedFiles env <;>
        by_cases h3 : extraFiles env = [] <;>
          simp [h1, h2, h3, List.isEmpty_iff, Bool.or_eq_true, contains_iff]
  · unfold missingFiles
    rw [List.filter_eq_nil_iff]
    constructor
    · intro h f hf
      have := h f hf
      rw [not_contains_iff] at this
      exact not_not.mp this
    · intro h f hf
      rw [not_contains_iff]
      exact not_not.mpr (h f hf)
  · unfold extraFiles
    rw [sortStrings_eq_nil_iff, List.filter_eq_nil_iff]
    constructor
    · intro h f hf
      have := h f hf
      rw [Bool.and_eq_true, not_and_or, not_contains_iff, not_contains_iff,
        not_not, not_not] at this
      exact this
    · intro h f hf
      rw [Bool.and_eq_true, not_and_or, not_contains_iff, not_contains_iff,
        not_not, not_not]
      exact h f hf
  · exact List.Pairwise.sublist (List.filter_sublist coreFiles) (by decide)
  · exact pairwise_sortStrings _

/-! ## C3 and C4: the text normalizer

The development below establishes the structural invariants of
`normalize_text`: its body has no carriage return, is strip-fixed, and all
its lines are rstrip-fixed; idempotence and the output-shape claims follow. -/

theorem splitNL_cons_nl (rest : List Char) : splitNL ('\n' :: rest) = [] :: splitNL rest := by
  simp [splitNL]

theorem splitNL_cons_ne (c : Char) (rest : List Char) (h : c ≠ '\n')
    (l0 : List Char) (ls : List (List Char)) (h0 : splitNL rest = l0 :: ls) :
    splitNL (c :: rest) = (c :: l0) :: ls := by
  unfold splitNL
  rw [if_neg h, h0]

theorem splitNL_ne_nil (l : List Char) : splitNL l ≠ [] := by
  induction l with
  | nil => simp [splitNL]
  | cons c rest ih =>
    by_cases hc : c = '\n'
    · subst hc
      rw [splitNL_cons_nl]
      simp
    · cases h0 : splitNL rest with
      | nil => exact absurd h0 ih
      | cons l0 ls =>
        rw [splitNL_cons_ne c rest hc l0 ls h0]
        simp

theorem joinNL_cons_of_ne (l : List Char) (ls : List (List Char)) (h : ls ≠ []) :
    joinNL (l :: ls) = l ++ '\n' :: joinNL ls := by
  cases ls with
  | nil => exact absurd rfl h
  | cons m ms => rfl

theorem joinNL_cons_cons (c : Char) (l0 : List Char) (ls : List (List Char)) :
    joinNL ((c :: l0) :: ls) = c :: joinNL (l0 :: ls) := by
  cases ls with
  | nil => rfl
  | cons m ms => rfl

theorem joinNL_splitNL (l : List Char) : joinNL (splitNL l) = l := by
  induction l with
  | nil => rfl
  | cons c rest ih =>
    by_cases hc : c = '\n'
    · subst hc
      rw [splitNL_cons_nl, joinNL_cons_of_ne [] (splitNL rest) (splitNL_ne_nil rest), ih]
      rfl
    · cases h0 : splitNL rest with
      | nil => exact absurd h0 (splitNL_ne_nil rest)
      | cons l0 ls =>
        rw [splitNL_cons_ne c rest hc l0 ls h0, joinNL_cons_cons, ← h0, ih]

theorem splitNL_append_nl (l : List Char) :
    splitNL (l ++ ['\n']) = splitNL l ++ [[]] := by
  induction l with
  | nil => rfl
  | cons c rest ih =>
    by_cases hc : c = '\n'
    · subst hc
      rw [List.cons_append, splitNL_cons_nl, splitNL_cons_nl, ih]
      rfl
    · cases h0 : splitNL rest with
      | nil => exact absurd h0 (splitNL_ne_nil rest)
      | cons l0 ls =>
        rw [List.cons_append,
          splitNL_cons_ne c (rest ++ ['\n']) hc l0 (ls ++ [[]]) (by rw [ih, h0]; rfl),
          splitNL_cons_ne c rest hc l0 ls h0]
        rfl

theorem mem_splitNL_no_nl (l x : List Char) (hx : x ∈ splitNL l) : '\n' ∉ x := by
  induction l generalizing x with
  | nil =>
    simp [splitNL] at hx
    subst hx
    simp
  | cons c rest ih =>
    by_cases hc : c = '\n'
    · subst hc
      rw [splitNL_cons_nl] at hx
      rcases List.mem_cons.mp hx with rfl | hx2
      · simp
      · exact ih x hx2
    · cases h0 : splitNL rest with
      | nil => exact absurd h0 (splitNL_ne_nil rest)
      | cons l0 ls =>
        rw [splitNL_cons_ne c rest hc l0 ls h0] at hx
        rcases List.mem_cons.mp hx with rfl | hx2
        · intro hmem
          rcases List.mem_cons.mp hmem with hEq | hmem2
          · exact hc hEq.symm
          · exact ih l0 (h0 ▸ List.mem_cons_self l0 ls) hmem2
        · exact ih x (h0 ▸ List.mem_cons_of_mem l0 hx2)

theorem mem_of_mem_splitNL (l x : List Char) (c : Char) (hx : x ∈ splitNL l)
    (hc : c ∈ x) : c ∈ l := by
  induction l generalizing x with
  | nil =>
    simp [splitNL] at hx
    subst hx
    simp at hc
  | cons a rest ih =>
    by_cases ha : a = '\n'
    · subst ha
      rw [splitNL_cons_nl] at hx
      rcases List.mem_cons.mp hx with rfl | hx2
      · simp at hc
      · exact List.mem_cons_of_mem _ (ih x hx2 hc)
    · cases h0 : splitNL rest with
      | nil => exact absurd h0 (splitNL_ne_nil rest)
      | cons l0 ls =>
        rw [splitNL_cons_ne a rest ha l0 ls h0] at hx
        rcases List.mem_cons.mp hx with rfl | hx2
        · rcases List.mem_cons.mp hc with rfl | hc2
          · exact List.mem_cons_self c rest
          · exact List.mem_cons_of_mem _
              (ih l0 (h0 ▸ List.mem_cons_self l0 ls) hc2)
        · exact List.mem_cons_of_mem _ (ih x (h0 ▸ List.mem_cons_of_mem l0 hx2) hc)

theorem splitNL_no_nl (l : List Char) (h : '\n' ∉ l) : splitNL l = [l] := by
  induction l with
  | nil => rfl
  | cons c rest ih =>
    have hc : c ≠ '\n' := fun hEq => h (hEq ▸ List.mem_cons_self c rest)
    have hrest : '\n' ∉ rest := fun hmem => h (List.mem_cons_of_mem c hmem)
    rw [splitNL_cons_ne c rest hc rest [] (ih hrest)]

theorem splitNL_append_cons_nl (l t : List Char) (h : '\n' ∉ l) :
    splitNL (l ++ '\n' :: t) = l :: splitNL t := by
  induction l with
  | nil => exact splitNL_cons_nl t
  | cons c ls ih =>
    have hc : c ≠ '\n' := fun hEq => h (hEq ▸ List.mem_cons_self c ls)
    have hls : '\n' ∉ ls := fun hmem => h (List.mem_cons_of_mem c hmem)
    rw [List.cons_append, splitNL_cons_ne c (ls ++ '\n' :: t) hc ls (splitNL t) (ih hls)]

theorem splitNL_joinNL (ls : List (List Char)) (hnl : ∀ x ∈ ls, '\n' ∉ x)
    (hne : ls ≠ []) : splitNL (joinNL ls) = ls := by
  induction ls with
  | nil => exact absurd rfl hne
  | cons x ms ih =>
    cases ms with
    | nil => exact splitNL_no_nl x (hnl x (List.mem_cons_self x []))
    | cons m ms2 =>
      rw [joinNL_cons_of_ne x (m :: ms2) (by simp),
        splitNL_append_cons_nl _ _ (hnl x (List.mem_cons_self x _)),
        ih (fun y hy => hnl y (List.mem_cons_of_mem x hy)) (by simp)]

theorem joinNL_append_single (ls : List (List Char)) (x : List Char) (hne : ls ≠ []) :
    joinNL (ls ++ [x]) = joinNL ls ++ '\n' :: x := by
  induction ls with
  | nil => exact absurd rfl hne
  | cons y ms ih =>
    cases ms with
    | nil => rfl
    | cons m ms2 =>
      rw [List.cons_append, joinNL_cons_of_ne y ((m :: ms2) ++ [x]) (by simp),
        ih (by simp), joinNL_cons_of_ne y (m :: ms2) (by simp)]
      simp

theorem mem_joinNL (ls : List (List Char)) (c : Char) (h : c ∈ joinNL ls) :
    c = '\n' ∨ ∃ x ∈ ls, c ∈ x := by
  induction ls with
  | nil => simp [joinNL] at h
  | cons x ms ih =>
    cases ms with
    | nil =>
      exact Or.inr ⟨x, List.mem_cons_self x [], h⟩
    | cons m ms2 =>
      rw [joinNL_cons_of_ne x (m :: ms2) (by simp)] at h
      rcases List.mem_append.mp h with h2 | h2
      · exact Or.inr ⟨x, List.mem_cons_self x _, h2⟩
      · rcases List.mem_cons.mp h2 with rfl | h3
        · exact Or.inl rfl
        · rcases ih h3 with h4 | ⟨y, hy, hcy⟩
          · exact Or.inl h4
          · exact Or.inr ⟨y, List.mem_cons_of_mem x hy, hcy⟩

theorem dropWhile_idem (p : Char → Bool) (l : List Char) :
    (l.dropWhile p).dropWhile p = l.dropWhile p := by
  cases h : l.dropWhile p with
  | nil => rfl
  | cons c t =>
    have hc : p c = false := by
      have h2 := List.head?_dropWhile_not p l
      rw [h, List.head?_cons] at h2
      exact h2
    rw [List.dropWhile_cons_of_neg (by simp [hc])]

theorem rstrip_append_ws (l w : List Char) (hw : ∀ c ∈ w, pyIsSpace c = true) :
    rstrip (l ++ w) = rstrip l := by
  unfold rstrip
  rw [List.reverse_append,
    List.dropWhile_append_of_pos (fun a ha => hw a (List.mem_reverse.mp ha))]

theorem rstrip_snoc_ws (l : List Char) (c : Char) (hc : pyIsSpace c = true) :
    rstrip (l ++ [c]) = rstrip l :=
  rstrip_append_ws l [c] (by simpa using hc)

theorem rstrip_snoc_not_ws (l : List Char) (c : Char) (hc : pyIsSpace c = false) :
    rstrip (l ++ [c]) = l ++ [c] := by
  unfold rstrip
  rw [List.reverse_append, List.reverse_singleton, List.singleton_append,
    List.dropWhile_cons_of_neg (by simp [hc]), List.reverse_cons, List.reverse_reverse]

theorem rstrip_idem (l : List Char) : rstrip (rstrip l) = rstrip l := by
  unfold rstrip
  rw [List.reverse_reverse, dropWhile_idem]

theorem rstrip_length_le (l : List Char) : (rstrip l).length ≤ l.length := by
  unfold rstrip
  rw [List.length_reverse]
  exact le_trans (List.dropWhile_suffix pyIsSpace).sublist.length_le
    (le_of_eq (List.length_reverse l))

theorem not_ws_of_rstrip_snoc (l : List Char) (c : Char)
    (h : rstrip (l ++ [c]) = l ++ [c]) : pyIsSpace c = false := by
  by_contra hc
  rw [Bool.not_eq_false] at hc
  rw [rstrip_snoc_ws l c hc] at h
  have hlen := congrArg List.length h
  have hle := rstrip_length_le l
  simp [List.length_append] at hlen
  omega

theorem mem_rstrip (l : List Char) (c : Char) (h : c ∈ rstrip l) : c ∈ l := by
  unfold rstrip at h
  rw [List.mem_reverse] at h
  exact List.mem_reverse.mp ((List.dropWhile_suffix pyIsSpace).sublist.subset h)

theorem lstrip_idem (l : List Char) : lstrip (lstrip l) = lstrip l :=
  dropWhile_idem pyIsSpace l

theorem mem_lstrip (l : List Char) (c : Char) (h : c ∈ lstrip l) : c ∈ l :=
  (List.dropWhile_suffix pyIsSpace).sublist.subset h

theorem lstrip_cons_fixed (c : Char) (r : List Char) (h : lstrip (c :: r) = c :: r) :
    pyIsSpace c = false := by
  by_contra hc
  rw [Bool.not_eq_false] at hc
  unfold lstrip at h
  rw [List.dropWhile_cons_of_pos hc] at h
  have hlen := congrArg List.length h
  have hle : (r.dropWhile pyIsSpace).length ≤ r.length :=
    (List.dropWhile_suffix pyIsSpace).sublist.length_le
  simp at hlen
  omega

theorem exists_rstrip_append (l : List Char) :
    ∃ s, l = rstrip l ++ s ∧ ∀ c ∈ s, pyIsSpace c = true := by
  refine ⟨(l.reverse.takeWhile pyIsSpace).reverse, ?_, ?_⟩
  · have h1 : l.reverse.takeWhile pyIsSpace ++ l.reverse.dropWhile pyIsSpace = l.reverse :=
      List.takeWhile_append_dropWhile pyIsSpace l.reverse
    calc l = l.reverse.reverse := (List.reverse_reverse l).symm
      _ = (l.reverse.takeWhile pyIsSpace ++ l.reverse.dropWhile pyIsSpace).reverse := by
            rw [h1]
      _ = rstrip l ++ (l.reverse.takeWhile pyIsSpace).reverse := by
            rw [List.reverse_append]
            rfl
  · intro c hc
    exact List.mem_takeWhile_imp (List.mem_reverse.mp hc)

theorem lstrip_rstrip_of_fixed (y : List Char) (hy : lstrip y = y) :
    lstrip (rstrip y) = rstrip y := by
  cases h : rstrip y with
  | nil => rfl
  | cons c t =>
    obtain ⟨s, hs, -⟩ := exists_rstrip_append y
    rw [h] at hs
    have hc : pyIsSpace c = false := by
      apply lstrip_cons_fixed c (t ++ s)
      rw [← List.cons_append, ← hs]
      exact hy
    unfold lstrip
    rw [List.dropWhile_cons_of_neg (by simp [hc])]

theorem stripWS_idem (l : List Char) : stripWS (stripWS l) = stripWS l := by
  unfold stripWS
  rw [lstrip_rstrip_of_fixed (lstrip l) (lstrip_idem l), rstrip_idem]

theorem mem_stripWS (l : List Char) (c : Char) (h : c ∈ stripWS l) : c ∈ l :=
  mem_lstrip l c (mem_rstrip (lstrip l) c h)

theorem lstrip_all_ws (w : List Char) (hw : ∀ c ∈ w, pyIsSpace c = true) :
    lstrip w = [] := by
  induction w with
  | nil => rfl
  | cons c r ih =>
    unfold lstrip
    rw [List.dropWhile_cons_of_pos (hw c (List.mem_cons_self c r))]
    exact ih (fun d hd => hw d (List.mem_cons_of_mem c hd))

theorem stripWS_append_ws (l w : List Char) (hw : ∀ c ∈ w, pyIsSpace c = true) :
    stripWS (l ++ w) = stripWS l := by
  unfold stripWS lstrip
  rw [List.dropWhile_append]
  split
  · rename_i hE
    have hl : l.dropWhile pyIsSpace = [] := by simpa [List.isEmpty_iff] using hE
    rw [hl, show w.dropWhile pyIsSpace = [] from lstrip_all_ws w hw]
  · exact rstrip_append_ws _ w hw

theorem replaceCR_no_cr (l : List Char) : '\r' ∉ replaceCR l := by
  intro h
  unfold replaceCR at h
  obtain ⟨x, hx, hEq⟩ := List.mem_map.mp h
  by_cases hxr : x = '\r'
  · rw [if_pos hxr] at hEq
    exact absurd hEq (by decide)
  · rw [if_neg hxr] at hEq
    exact hxr hEq

theorem replaceCR_eq_self (l : List Char) (h : '\r' ∉ l) : replaceCR l = l := by
  induction l with
  | nil => rfl
  | cons c r ih =>
    have hc : c ≠ '\r' := fun hEq => h (hEq ▸ List.mem_cons_self c r)
    have hr : '\r' ∉ r := fun hm => h (List.mem_cons_of_mem c hm)
    show (if c = '\r' then '\n' else c) :: replaceCR r = c :: r
    rw [if_neg hc, ih hr]

theorem replaceCRLF_eq_self (l : List Char) (h : '\r' ∉ l) : replaceCRLF l = l := by
  induction l with
  | nil => rfl
  | cons c rest ih =>
    have hc : c ≠ '\r' := fun hEq => h (hEq ▸ List.mem_cons_self c rest)
    have hrest : '\r' ∉ rest := fun hm => h (List.mem_cons_of_mem c hm)
    cases rest with
    | nil => rfl
    | cons d rest2 =>
      have e : replaceCRLF (c :: d :: rest2) =
          if c = '\r' ∧ d = '\n' then '\n' :: replaceCRLF rest2
          else c :: replaceCRLF (d :: rest2) := rfl
      rw [e, if_neg (fun hand => hc hand.1), ih hrest]

theorem no_cr_normBody (t : List Char) : '\r' ∉ normBody t := by
  intro h
  unfold normBody at h
  have h1 := mem_stripWS _ _ h
  rcases mem_joinNL _ _ h1 with hEq | ⟨x, hx, hcx⟩
  · exact absurd hEq (by decide)
  · obtain ⟨piece, hpiece, rfl⟩ := List.mem_map.mp hx
    exact replaceCR_no_cr _
      (mem_of_mem_splitNL _ piece '\r' hpiece (mem_rstrip piece '\r' hcx))

theorem map_rstrip_fixed (ls : List (List Char)) (h : ∀ x ∈ ls, rstrip x = x) :
    ls.map rstrip = ls := by
  induction ls with
  | nil => rfl
  | cons x ms ih =>
    rw [List.map_cons, h x (List.mem_cons_self x ms),
      ih (fun y hy => h y (List.mem_cons_of_mem x hy))]

theorem lines_fixed_map_rstrip (s : List Char) :
    ∀ x ∈ (splitNL s).map rstrip, rstrip x = x := by
  intro x hx
  obtain ⟨piece, -, rfl⟩ := List.mem_map.mp hx
  exact rstrip_idem piece

theorem lines_no_nl_map_rstrip (s : List Char) :
    ∀ x ∈ (splitNL s).map rstrip, '\n' ∉ x := by
  intro x hx hmem
  obtain ⟨piece, hpiece, rfl⟩ := List.mem_map.mp hx
  exact mem_splitNL_no_nl s piece hpiece (mem_rstrip piece '\n' hmem)

theorem splitNL_joinNL_map_rstrip (s : List Char) :
    splitNL (joinNL ((splitNL s).map rstrip)) = (splitNL s).map rstrip :=
  splitNL_joinNL _ (lines_no_nl_map_rstrip s)
    (fun hE => splitNL_ne_nil s (List.map_eq_nil_iff.mp hE))

theorem lines_fixed_lstrip (j : List Char)
    (hj : ∀ x ∈ splitNL j, rstrip x = x) :
    ∀ x ∈ splitNL (lstrip j), rstrip x = x := by
  induction j with
  | nil => exact hj
  | cons c rest ih =>
    by_cases hp : pyIsSpace c = true
    · have hstep : lstrip (c :: rest) = lstrip rest := by
        unfold lstrip
        rw [List.dropWhile_cons_of_pos hp]
      rw [hstep]
      apply ih
      by_cases hc : c = '\n'
      · subst hc
        intro x hx
        exact hj x (by rw [splitNL_cons_nl]; exact List.mem_cons_of_mem _ hx)
      · cases h0 : splitNL rest with
        | nil => exact absurd h0 (splitNL_ne_nil rest)
        | cons l0 ls =>
          have hsplit : splitNL (c :: rest) = (c :: l0) :: ls :=
            splitNL_cons_ne c rest hc l0 ls h0
          have hl0fix : rstrip l0 = l0 := by
            rcases List.eq_nil_or_concat' l0 with rfl | ⟨l0p, d, rfl⟩
            · rfl
            · have hfix : rstrip (c :: (l0p ++ [d])) = c :: (l0p ++ [d]) :=
                hj _ (hsplit ▸ List.mem_cons_self _ _)
              rw [← List.cons_append] at hfix
              exact rstrip_snoc_not_ws l0p d (not_ws_of_rstrip_snoc (c :: l0p) d hfix)
          intro x hx
          rcases List.mem_cons.mp hx with rfl | hx2
          · exact hl0fix
          · exact hj x (hsplit ▸ List.mem_cons_of_mem _ hx2)
    · have hstep : lstrip (c :: rest) = c :: rest := by
        unfold lstrip
        rw [List.dropWhile_cons_of_neg hp]
      rw [hstep]
      exact hj

theorem snoc_line_mem_splitNL (l : List Char) (c : Char) (hc : c ≠ '\n') :
    ∃ x, x ++ [c] ∈ splitNL (l ++ [c]) := by
  induction l with
  | nil =>
    refine ⟨[], ?_⟩
    rw [List.nil_append,
      splitNL_no_nl [c] (fun hm => hc (List.mem_singleton.mp hm).symm)]
    simp
  | cons a l2 ih =>
    by_cases ha : a = '\n'
    · subst ha
      rw [List.cons_append, splitNL_cons_nl]
      obtain ⟨x, hx⟩ := ih
      exact ⟨x, List.mem_cons_of_mem _ hx⟩
    · obtain ⟨x, hx⟩ := ih
      cases h0 : splitNL (l2 ++ [c]) with
      | nil => exact absurd h0 (splitNL_ne_nil _)
      | cons m ms =>
        rw [List.cons_append, splitNL_cons_ne a (l2 ++ [c]) ha m ms h0]
        rw [h0] at hx
        rcases List.mem_cons.mp hx with hEq | hx2
        · refine ⟨a :: x, ?_⟩
          have hstep : (a :: x) ++ [c] = a :: m := by rw [List.cons_append, hEq]
          rw [hstep]
          exact List.mem_cons_self _ _
        · exact ⟨x, List.mem_cons_of_mem _ hx2⟩

theorem lines_fixed_rstrip (j : List Char)
    (hj : ∀ x ∈ splitNL j, rstrip x = x) :
    ∀ x ∈ splitNL (rstrip j), rstrip x = x := by
  induction j using List.reverseRecOn with
  | nil => exact hj
  | append_singleton j2 c ih =>
    by_cases hp : pyIsSpace c = true
    · have hcnl : c = '\n' := by
        by_contra hcn
        obtain ⟨x, hx⟩ := snoc_line_mem_splitNL j2 c hcn
        have hfix := hj _ hx
        have hws := not_ws_of_rstrip_snoc x c hfix
        rw [hws] at hp
        exact Bool.noConfusion hp
      subst hcnl
      rw [rstrip_snoc_ws j2 '\n' (by decide)]
      apply ih
      intro x hx
      exact hj x (by rw [splitNL_append_nl]; exact List.mem_append_left _ hx)
    · rw [rstrip_snoc_not_ws j2 c (by simpa using hp)]
      exact hj

theorem lines_fixed_normBody (t : List Char) :
    ∀ x ∈ splitNL (normBody t), rstrip x = x := by
  unfold normBody stripWS
  apply lines_fixed_rstrip
  apply lines_fixed_lstrip
  intro x hx
  rw [splitNL_joinNL_map_rstrip] at hx
  exact lines_fixed_map_rstrip _ x hx

theorem stripWS_normBody (t : List Char) : stripWS (normBody t) = normBody t := by
  unfold normBody
  exact stripWS_idem _

theorem rstrip_normBody (t : List Char) : rstrip (normBody t) = normBody t := by
  unfold normBody stripWS
  exact rstrip_idem _

theorem normList_idem (u : List Char) : normList (normList u) = normList u := by
  have hnocr : '\r' ∉ normList u := by
    intro h
    rcases List.mem_append.mp h with h2 | h2
    · exact no_cr_normBody u h2
    · exact absurd (List.mem_singleton.mp h2) (by decide)
  have e1 : splitNL (normList u) = splitNL (normBody u) ++ [[]] := splitNL_append_nl _
  have e2 : (splitNL (normBody u) ++ [[]]).map rstrip = splitNL (normBody u) ++ [[]] := by
    rw [List.map_append, map_rstrip_fixed _ (lines_fixed_normBody u)]
    rfl
  have e3 : joinNL (splitNL (normBody u) ++ [[]]) = normBody u ++ ['\n'] := by
    rw [joinNL_append_single _ [] (splitNL_ne_nil _), joinNL_splitNL]
  have e4 : stripWS (normBody u ++ ['\n']) = normBody u := by
    rw [stripWS_append_ws _ ['\n'] (by decide), stripWS_normBody]
  calc normList (normList u)
      = stripWS (joinNL ((splitNL (normList u)).map rstrip)) ++ ['\n'] := by
        show normBody (normList u) ++ ['\n'] = _
        unfold normBody
        rw [replaceCRLF_eq_self _ hnocr, replaceCR_eq_self _ hnocr]
    _ = stripWS (joinNL (splitNL (normBody u) ++ [[]])) ++ ['\n'] := by rw [e1, e2]
    _ = stripWS (normBody u ++ ['\n']) ++ ['\n'] := by rw [e3]
    _ = normBody u ++ ['\n'] := by rw [e4]
    _ = normList u := rfl

/-- C3: `normalize_text` is idempotent — normalizing an already-normalized
string changes nothing, for every input string. -/
theorem claim3_normalize_text_idempotent (t : String) :
    normalize_text (normalize_text t) = normalize_text t := by
  show (⟨normList (normList t.data)⟩ : String) = ⟨normList t.data⟩
  exact congrArg String.mk (normList_idem t.data)

/-- C4: `normalize_text` is a total Lean function, and for every string the
output is some `b ++ "\n"` where `b` is `rstrip`-fixed — so the output ends
with exactly one newline (its character before the final `'\n'`, when it
exists, is not whitespace, in particular not another `'\n'`) — and every line
of the output (in the Python `split("\n")` sense) carries no trailing
whitespace. -/
theorem claim4_normalize_text_shape (t : String) :
    (∃ b, (normalize_text t).data = b ++ ['\n'] ∧ rstrip b = b) ∧
    ∀ line ∈ splitNL (normalize_text t).data, rstrip line = line := by
  constructor
  · exact ⟨normBody t.data, rfl, rstrip_normBody t.data⟩
  · intro line hline
    rw [show (normalize_text t).data = normBody t.data ++ ['\n'] from rfl,
      splitNL_append_nl] at hline
    rcases List.mem_append.mp hline with h2 | h2
    · exact lines_fixed_normBody t.data line h2
    · rw [List.mem_singleton.mp h2]
      rfl

end CursorCult
